import Mathlib

/-
  Verification of the streaming file codec in cryptkeeper/_engine.py.

  The engine encrypts a file with AES in CBC mode: the output is an 8-byte
  little-endian length field, a 16-byte IV, and the CBC ciphertext of the
  plaintext padded with random bytes to a 16-byte boundary and extended with
  a trailer block carrying the original length.  Decryption reads the header,
  CBC-decrypts the rest in chunks, and truncates the sink to the recorded
  original size.

  Byte strings are modelled as List Nat.  The AES block primitive is external
  library code (PyCrypto), so it is abstracted as a keyed family of 16-byte
  block permutations; CBC chaining, framing, padding, chunking, validation
  and truncation are translated from the source.  File I/O is recorded as an
  explicit event trace so that statements about the order of validation and
  I/O can be made.
-/

namespace Cryptkeeper

/-- Errors raised by the engine, as surfaced by the Python libraries it
calls: ValueError from AES.new on a bad key length or bad IV length,
struct.error from struct.unpack on a field that is not exactly 8 bytes, and
ValueError from the CBC cipher when data is not a multiple of the 16-byte
block size. -/
inductive CkErr
  | keyLength
  | ivLength
  | structError
  | blockAlign
  deriving DecidableEq, Repr

/-- File I/O events on the source and sink, recorded in program order. -/
inductive Ev
  | statSource
  | openSource
  | openSink
  | readSource (n : Nat)
  | writeSink (n : Nat)
  | truncateSink (n : Nat)
  deriving DecidableEq, Repr

/-- A 16-byte block cipher primitive (the AES core from PyCrypto, which is
external to this repository): an encryption and a decryption function on
16-byte blocks, inverse to each other and length preserving. -/
structure BlockCipher where
  enc : List Nat → List Nat
  dec : List Nat → List Nat
  enc_len : ∀ b : List Nat, b.length = 16 → (enc b).length = 16
  dec_len : ∀ b : List Nat, b.length = 16 → (dec b).length = 16
  dec_enc : ∀ b : List Nat, b.length = 16 → dec (enc b) = b

/-- Bytewise XOR of two byte strings, as used by CBC chaining. -/
def bxor (a b : List Nat) : List Nat := List.zipWith (· ^^^ ·) a b

/-- CBC encryption of a byte string whose length is a multiple of 16, block
by block: each plaintext block is XORed with the previous ciphertext block
(initially the IV) and then enciphered.  Returns the new chaining value and
the ciphertext; this models the running state that AES.new in MODE_CBC
carries across successive encrypt calls. -/
def cbcEncBlocks (C : BlockCipher) (prev data : List Nat) : List Nat × List Nat :=
  if h : data = [] then (prev, [])
  else
    let c := C.enc (bxor (data.take 16) prev)
    let r := cbcEncBlocks C c (data.drop 16)
    (r.1, c ++ r.2)
termination_by data.length
decreasing_by
  have hp : 0 < data.length := List.length_pos.mpr h
  simp only [List.length_drop]
  omega

/-- CBC decryption of a byte string whose length is a multiple of 16, block
by block: each ciphertext block is deciphered and XORed with the previous
ciphertext block (initially the IV).  Returns the new chaining value and the
plaintext. -/
def cbcDecBlocks (C : BlockCipher) (prev data : List Nat) : List Nat × List Nat :=
  if h : data = [] then (prev, [])
  else
    let c := data.take 16
    let p := bxor (C.dec c) prev
    let r := cbcDecBlocks C c (data.drop 16)
    (r.1, p ++ r.2)
termination_by data.length
decreasing_by
  have hp : 0 < data.length := List.length_pos.mpr h
  simp only [List.length_drop]
  omega

/-- Key lengths accepted by AES: 16, 24 or 32 bytes. -/
def validKeyLength (key : List Nat) : Prop :=
  key.length = 16 ∨ key.length = 24 ∨ key.length = 32

instance (key : List Nat) : Decidable (validKeyLength key) := by
  unfold validKeyLength
  infer_instance

/-- AES.new(key, AES.MODE_CBC, iv): PyCrypto validates that the key is 16,
24 or 32 bytes and that the IV is 16 bytes, raising ValueError otherwise;
on success it yields the keyed block primitive together with the IV as the
initial chaining value. -/
def AES_new (A : List Nat → BlockCipher) (key iv : List Nat) :
    Except CkErr (BlockCipher × List Nat) :=
  if validKeyLength key then
    if iv.length = 16 then .ok (A key, iv) else .error .ivLength
  else .error .keyLength

/-- encryptor.encrypt(chunk): raises ValueError unless the data length is a
multiple of the 16-byte block size; otherwise CBC-encrypts under the running
chaining value, returning the new chaining value and the ciphertext. -/
def cipherEncrypt (C : BlockCipher) (prev data : List Nat) :
    Except CkErr (List Nat × List Nat) :=
  if data.length % 16 = 0 then .ok (cbcEncBlocks C prev data)
  else .error .blockAlign

/-- decryptor.decrypt(chunk): raises ValueError unless the data length is a
multiple of the 16-byte block size; otherwise CBC-decrypts under the running
chaining value, returning the new chaining value and the plaintext. -/
def cipherDecrypt (C : BlockCipher) (prev data : List Nat) :
    Except CkErr (List Nat × List Nat) :=
  if data.length % 16 = 0 then .ok (cbcDecBlocks C prev data)
  else .error .blockAlign

/-- Crypto.Random.new(): a byte stream that is read sequentially. -/
structure RandSource where
  stream : Nat → Nat
  pos : Nat

/-- randomness.read(n): the next n bytes of the stream, and the advanced
stream. -/
def RandSource.read (r : RandSource) (n : Nat) : List Nat × RandSource :=
  ((List.range n).map fun i => r.stream (r.pos + i), ⟨r.stream, r.pos + n⟩)

/-- Little-endian base-256 digits of a number, k bytes long; struct.pack
with format Q is the case k = 8. -/
def packQn : Nat → Nat → List Nat
  | 0, _ => []
  | k + 1, n => n % 256 :: packQn k (n / 256)

/-- struct.pack of a number with format Q: 8-byte little-endian encoding. -/
def packQ (n : Nat) : List Nat := packQn 8 n

/-- Numeric value of a little-endian byte string. -/
def ofLE : List Nat → Nat
  | [] => 0
  | b :: bs => b + 256 * ofLE bs

/-- struct.unpack of a byte string with format Q: requires exactly 8 bytes,
raising struct.error otherwise. -/
def unpackQ (bs : List Nat) : Except CkErr Nat :=
  if bs.length = 8 then .ok (ofLE bs) else .error .structError

/-- Python file truncate(n) applied to a sink currently holding out: shrinks
the file to n bytes, or extends it with zero bytes (POSIX ftruncate
semantics) when n exceeds the current size. -/
def truncateTo (out : List Nat) (n : Nat) : List Nat :=
  if n ≤ out.length then out.take n
  else out ++ List.replicate (n - out.length) 0

/-- The while loop of encrypt_file (lines 67-107 of _engine.py): read a
chunk of at most chunksize bytes from the remaining input; a chunk that is
empty or whose length is not a multiple of 16 is terminal: it is padded
with random bytes to the next 16-byte boundary and extended with 8 random
bytes plus the 8-byte file-size record, then encrypted and written, ending
the loop; any other chunk is encrypted, written, and the loop continues.
Returns the I/O events and the ciphertext bytes written (or the error). -/
def encryptLoop (C : BlockCipher) (prev : List Nat) (rnd : RandSource)
    (rest fsRec : List Nat) (chunksize : Nat) :
    List Ev × Except CkErr (List Nat) :=
  let chunk := rest.take chunksize
  if h : chunk.length = 0 ∨ chunk.length % 16 ≠ 0 then
    let p1 := rnd.read (16 - chunk.length % 16)
    let p2 := p1.2.read (16 - fsRec.length)
    let full := chunk ++ p1.1 ++ p2.1 ++ fsRec
    match cipherEncrypt C prev full with
    | .error e => ([Ev.readSource chunk.length], .error e)
    | .ok pe => ([Ev.readSource chunk.length, Ev.writeSink pe.2.length], .ok pe.2)
  else
    have hlt : (rest.drop chunksize).length < rest.length := by
      rcases not_or.mp h with ⟨h0, _⟩
      have h1 : (rest.take chunksize).length ≠ 0 := h0
      rw [List.length_take] at h1
      simp only [List.length_drop]
      omega
    match cipherEncrypt C prev chunk with
    | .error e => ([Ev.readSource chunk.length], .error e)
    | .ok pe =>
      let r := encryptLoop C pe.1 rnd (rest.drop chunksize) fsRec chunksize
      (Ev.readSource chunk.length :: Ev.writeSink pe.2.length :: r.1,
        r.2.map fun o => pe.2 ++ o)
termination_by rest.length
decreasing_by
  exact hlt

/-- encrypt_file (lines 26-107 of _engine.py): draw a fresh 16-byte IV from
the randomness source, build the AES-CBC cipher (which raises on a bad key
before any file I/O), stat the source for its size, write the 8-byte
little-endian size field and the IV, then stream-encrypt the source with
encryptLoop.  Returns the I/O event trace and the full sink contents (or
the error raised). -/
def encrypt_file (A : List Nat → BlockCipher) (key source : List Nat)
    (rnd : RandSource) (chunksize : Nat) :
    List Ev × Except CkErr (List Nat) :=
  let iv := (rnd.read 16).1
  let rnd1 := (rnd.read 16).2
  match AES_new A key iv with
  | .error e => ([], .error e)
  | .ok Ci =>
    let filesize := source.length
    let r := encryptLoop Ci.1 Ci.2 rnd1 source (packQ filesize) chunksize
    (Ev.statSource :: Ev.openSource :: Ev.openSink ::
        Ev.writeSink 8 :: Ev.writeSink 16 :: r.1,
      r.2.map fun ct => packQ filesize ++ iv ++ ct)

/-- The while loop of decrypt_file (lines 138-142 of _engine.py): read
chunks of at most chunksize bytes, stopping at an empty read, decrypting
each chunk under the running CBC state and writing the result.  Returns the
I/O events and the plaintext bytes written (or the error). -/
def decryptLoop (C : BlockCipher) (prev rest : List Nat) (chunksize : Nat) :
    List Ev × Except CkErr (List Nat) :=
  let chunk := rest.take chunksize
  if h : chunk.length = 0 then ([Ev.readSource 0], .ok [])
  else
    have hlt : (rest.drop chunksize).length < rest.length := by
      have h1 : (rest.take chunksize).length ≠ 0 := h
      rw [List.length_take] at h1
      simp only [List.length_drop]
      omega
    match cipherDecrypt C prev chunk with
    | .error e => ([Ev.readSource chunk.length], .error e)
    | .ok pd =>
      let r := decryptLoop C pd.1 (rest.drop chunksize) chunksize
      (Ev.readSource chunk.length :: Ev.writeSink pd.2.length :: r.1,
        r.2.map fun o => pd.2 ++ o)
termination_by rest.length
decreasing_by
  exact hlt

/-- decrypt_file (lines 111-144 of _engine.py): open the source, read the
8-byte size field (struct.unpack raises struct.error when fewer than 8
bytes are available), read the 16-byte IV, build the AES-CBC cipher (which
raises on a bad key or a short IV), open the sink, stream-decrypt the
remaining bytes with decryptLoop, and finally truncate the sink to the
recorded original size.  Returns the I/O event trace and the final sink
contents (or the error raised). -/
def decrypt_file (A : List Nat → BlockCipher) (key source : List Nat)
    (chunksize : Nat) : List Ev × Except CkErr (List Nat) :=
  let fld := source.take 8
  match unpackQ fld with
  | .error e => ([Ev.openSource, Ev.readSource fld.length], .error e)
  | .ok origsize =>
    let iv := (source.drop 8).take 16
    match AES_new A key iv with
    | .error e =>
      ([Ev.openSource, Ev.readSource fld.length, Ev.readSource iv.length],
        .error e)
    | .ok Ci =>
      let r := decryptLoop Ci.1 Ci.2 (source.drop 24) chunksize
      match r.2 with
      | .error e =>
        (Ev.openSource :: Ev.readSource fld.length :: Ev.readSource iv.length ::
            Ev.openSink :: r.1, .error e)
      | .ok out =>
        (Ev.openSource :: Ev.readSource fld.length :: Ev.readSource iv.length ::
            Ev.openSink :: r.1 ++ [Ev.truncateSink origsize],
          .ok (truncateTo out origsize))

/-- The bytes encrypted for a terminal chunk: the chunk itself, random
padding to the next 16-byte boundary, 8 random bytes, and the 8-byte
file-size record.  This names the byte string built by lines 86-101 of
_engine.py, for use in statements about encryptLoop. -/
def terminalChunk (rnd : RandSource) (chunk fsRec : List Nat) : List Nat :=
  chunk ++ (rnd.read (16 - chunk.length % 16)).1 ++
    ((rnd.read (16 - chunk.length % 16)).2.read (16 - fsRec.length)).1 ++ fsRec

/-- Encrypt with chunk size ce, then decrypt the produced container with
chunk size cd: the recovered plaintext, or the first error raised. -/
def roundTrip (A : List Nat → BlockCipher) (key P : List Nat)
    (rnd : RandSource) (ce cd : Nat) : Except CkErr (List Nat) :=
  match (encrypt_file A key P rnd ce).2 with
  | .error e => .error e
  | .ok ct => (decrypt_file A key ct cd).2

/-- Default chunk size of encrypt_file: 64 * 1024 bytes. -/
def DEFAULT_ENCRYPT_CHUNKSIZE : Nat := 64 * 1024

/-- Default chunk size of decrypt_file: 24 * 1024 bytes. -/
def DEFAULT_DECRYPT_CHUNKSIZE : Nat := 24 * 1024

/-- The identity block cipher: a trivially invertible instance of the block
primitive, used to run the engine on concrete inputs. -/
def idCipher : BlockCipher where
  enc := id
  dec := id
  enc_len := fun _ h => h
  dec_len := fun _ h => h
  dec_enc := fun _ _ => rfl

/-- A keyed cipher family that ignores the key and uses the identity block
cipher. -/
def idAES : List Nat → BlockCipher := fun _ => idCipher

/-- A concrete randomness source: the all-zero byte stream. -/
def rnd0 : RandSource := ⟨fun _ => 0, 0⟩

/-- The 13 bytes of the test plaintext, the ASCII string Slithy toves
followed by a newline. -/
def slithy : List Nat :=
  [83, 108, 105, 116, 104, 121, 32, 116, 111, 118, 101, 115, 10]

/-! Basic facts about XOR of byte strings, the randomness source and the
little-endian length field. -/

theorem bxor_length (a b : List Nat) :
    (bxor a b).length = min a.length b.length :=
  List.length_zipWith (· ^^^ ·) a b

theorem bxor_cancel (a : List Nat) :
    ∀ b : List Nat, a.length = b.length → bxor (bxor a b) b = a := by
  induction a with
  | nil => intro b _; simp [bxor]
  | cons x xs ih =>
    intro b h
    cases b with
    | nil => simp at h
    | cons y ys =>
      have h2 : xs.length = ys.length := by
        simpa using h
      simp only [bxor, List.zipWith_cons_cons]
      rw [Nat.xor_cancel_right]
      exact congrArg (x :: ·) (ih ys h2)

theorem RandSource.read_length (r : RandSource) (n : Nat) :
    (r.read n).1.length = n := by
  simp [RandSource.read]

theorem packQn_length (k : Nat) : ∀ n : Nat, (packQn k n).length = k := by
  induction k with
  | zero => intro n; rfl
  | succ k ih => intro n; simp [packQn, ih]

theorem packQ_length (n : Nat) : (packQ n).length = 8 :=
  packQn_length 8 n

theorem ofLE_packQn (k : Nat) : ∀ n : Nat, ofLE (packQn k n) = n % 256 ^ k := by
  induction k with
  | zero => intro n; simp [packQn, ofLE, Nat.mod_one]
  | succ k ih =>
    intro n
    simp only [packQn, ofLE, ih]
    rw [pow_succ' 256 k, Nat.mod_mul]

theorem ofLE_packQ (n : Nat) (h : n < 2 ^ 64) : ofLE (packQ n) = n := by
  rw [packQ, ofLE_packQn]
  have h256 : (256 : Nat) ^ 8 = 2 ^ 64 := by norm_num
  rw [h256]
  exact Nat.mod_eq_of_lt h

/-! Structure of CBC over whole byte strings: unfolding equations, lengths,
concatenation, and inversion.  These express that the running chaining
state, not the chunk framing, is what carries CBC across calls. -/

theorem cbcEncBlocks_nil (C : BlockCipher) (prev : List Nat) :
    cbcEncBlocks C prev [] = (prev, []) := by
  simp [cbcEncBlocks]

theorem cbcDecBlocks_nil (C : BlockCipher) (prev : List Nat) :
    cbcDecBlocks C prev [] = (prev, []) := by
  simp [cbcDecBlocks]

theorem cbcEncBlocks_cons (C : BlockCipher) (prev data : List Nat)
    (h : data ≠ []) :
    cbcEncBlocks C prev data =
      ((cbcEncBlocks C (C.enc (bxor (data.take 16) prev)) (data.drop 16)).1,
        C.enc (bxor (data.take 16) prev) ++
          (cbcEncBlocks C (C.enc (bxor (data.take 16) prev)) (data.drop 16)).2) := by
  rw [cbcEncBlocks]
  simp [h]

theorem cbcDecBlocks_cons (C : BlockCipher) (prev data : List Nat)
    (h : data ≠ []) :
    cbcDecBlocks C prev data =
      ((cbcDecBlocks C (data.take 16) (data.drop 16)).1,
        bxor (C.dec (data.take 16)) prev ++
          (cbcDecBlocks C (data.take 16) (data.drop 16)).2) := by
  rw [cbcDecBlocks]
  simp [h]

theorem cbcEncBlocks_spec (C : BlockCipher) :
    ∀ (n : Nat) (prev data : List Nat), data.length ≤ n →
      prev.length = 16 → data.length % 16 = 0 →
      (cbcEncBlocks C prev data).2.length = data.length ∧
      (cbcEncBlocks C prev data).1.length = 16 := by
  intro n
  induction n with
  | zero =>
    intro prev data hle hp _
    have hnil : data = [] := List.length_eq_zero.mp (by omega)
    subst hnil
    simp [cbcEncBlocks_nil, hp]
  | succ n ih =>
    intro prev data hle hp hd
    by_cases h : data = []
    · subst h
      simp [cbcEncBlocks_nil, hp]
    · have hpos : 0 < data.length := List.length_pos.mpr h
      have h16 : 16 ≤ data.length := by omega
      have htake : (data.take 16).length = 16 := by
        rw [List.length_take]; omega
      have hbx : (bxor (data.take 16) prev).length = 16 := by
        rw [bxor_length, htake, hp]
        exact Nat.min_self 16
      have hc : (C.enc (bxor (data.take 16) prev)).length = 16 :=
        C.enc_len _ hbx
      have hdrop : (data.drop 16).length = data.length - 16 :=
        List.length_drop 16 data
      have hrec := ih (C.enc (bxor (data.take 16) prev)) (data.drop 16)
        (by omega) hc (by omega)
      rw [cbcEncBlocks_cons C prev data h]
      constructor
      · simp only [List.length_append, hc, hrec.1, hdrop]
        omega
      · exact hrec.2

theorem cbcEncBlocks_len (C : BlockCipher) (prev data : List Nat)
    (hp : prev.length = 16) (hd : data.length % 16 = 0) :
    (cbcEncBlocks C prev data).2.length = data.length :=
  (cbcEncBlocks_spec C data.length prev data le_rfl hp hd).1

theorem cbcEncBlocks_state_len (C : BlockCipher) (prev data : List Nat)
    (hp : prev.length = 16) (hd : data.length % 16 = 0) :
    (cbcEncBlocks C prev data).1.length = 16 :=
  (cbcEncBlocks_spec C data.length prev data le_rfl hp hd).2

theorem cbcDecBlocks_len (C : BlockCipher) :
    ∀ (n : Nat) (prev data : List Nat), data.length ≤ n →
      prev.length = 16 → data.length % 16 = 0 →
      (cbcDecBlocks C prev data).2.length = data.length := by
  intro n
  induction n with
  | zero =>
    intro prev data hle _ _
    have hnil : data = [] := List.length_eq_zero.mp (by omega)
    subst hnil
    simp [cbcDecBlocks_nil]
  | succ n ih =>
    intro prev data hle hp hd
    by_cases h : data = []
    · subst h
      simp [cbcDecBlocks_nil]
    · have hpos : 0 < data.length := List.length_pos.mpr h
      have h16 : 16 ≤ data.length := by omega
      have htake : (data.take 16).length = 16 := by
        rw [List.length_take]; omega
      have hdec : (C.dec (data.take 16)).length = 16 := C.dec_len _ htake
      have hbx : (bxor (C.dec (data.take 16)) prev).length = 16 := by
        rw [bxor_length, hdec, hp]
        exact Nat.min_self 16
      have hdrop : (data.drop 16).length = data.length - 16 :=
        List.length_drop 16 data
      have hrec := ih (data.take 16) (data.drop 16) (by omega) htake (by omega)
      rw [cbcDecBlocks_cons C prev data h]
      simp only [List.length_append, hbx, hrec, hdrop]
      omega

theorem cbcEncBlocks_append (C : BlockCipher) :
    ∀ (n : Nat) (prev d1 d2 : List Nat), d1.length ≤ n → d1.length % 16 = 0 →
      cbcEncBlocks C prev (d1 ++ d2) =
        ((cbcEncBlocks C (cbcEncBlocks C prev d1).1 d2).1,
          (cbcEncBlocks C prev d1).2 ++
            (cbcEncBlocks C (cbcEncBlocks C prev d1).1 d2).2) := by
  intro n
  induction n with
  | zero =>
    intro prev d1 d2 hle _
    have hnil : d1 = [] := List.length_eq_zero.mp (by omega)
    subst hnil
    simp [cbcEncBlocks_nil]
  | succ n ih =>
    intro prev d1 d2 hle hd
    by_cases h : d1 = []
    · subst h
      simp [cbcEncBlocks_nil]
    · have hpos : 0 < d1.length := List.length_pos.mpr h
      have h16 : 16 ≤ d1.length := by omega
      have happ : d1 ++ d2 ≠ [] := by
        simp [h]
      have htake : (d1 ++ d2).take 16 = d1.take 16 :=
        List.take_append_of_le_length h16
      have hdrop : (d1 ++ d2).drop 16 = d1.drop 16 ++ d2 :=
        List.drop_append_of_le_length h16
      have hdlen : (d1.drop 16).length = d1.length - 16 := List.length_drop 16 d1
      rw [cbcEncBlocks_cons C prev (d1 ++ d2) happ, htake, hdrop,
        ih (C.enc (bxor (d1.take 16) prev)) (d1.drop 16) d2 (by omega) (by omega),
        cbcEncBlocks_cons C prev d1 h]
      simp [List.append_assoc]

theorem cbcDecBlocks_append (C : BlockCipher) :
    ∀ (n : Nat) (prev d1 d2 : List Nat), d1.length ≤ n → d1.length % 16 = 0 →
      cbcDecBlocks C prev (d1 ++ d2) =
        ((cbcDecBlocks C (cbcDecBlocks C prev d1).1 d2).1,
          (cbcDecBlocks C prev d1).2 ++
            (cbcDecBlocks C (cbcDecBlocks C prev d1).1 d2).2) := by
  intro n
  induction n with
  | zero =>
    intro prev d1 d2 hle _
    have hnil : d1 = [] := List.length_eq_zero.mp (by omega)
    subst hnil
    simp [cbcDecBlocks_nil]
  | succ n ih =>
    intro prev d1 d2 hle hd
    by_cases h : d1 = []
    · subst h
      simp [cbcDecBlocks_nil]
    · have hpos : 0 < d1.length := List.length_pos.mpr h
      have h16 : 16 ≤ d1.length := by omega
      have happ : d1 ++ d2 ≠ [] := by
        simp [h]
      have htake : (d1 ++ d2).take 16 = d1.take 16 :=
        List.take_append_of_le_length h16
      have hdrop : (d1 ++ d2).drop 16 = d1.drop 16 ++ d2 :=
        List.drop_append_of_le_length h16
      have hdlen : (d1.drop 16).length = d1.length - 16 := List.length_drop 16 d1
      rw [cbcDecBlocks_cons C prev (d1 ++ d2) happ, htake, hdrop,
        ih (d1.take 16) (d1.drop 16) d2 (by omega) (by omega),
        cbcDecBlocks_cons C prev d1 h]
      simp [List.append_assoc]

theorem cbcDec_cbcEnc (C : BlockCipher) :
    ∀ (n : Nat) (prev data : List Nat), data.length ≤ n →
      prev.length = 16 → data.length % 16 = 0 →
      cbcDecBlocks C prev (cbcEncBlocks C prev data).2 =
        ((cbcEncBlocks C prev data).1, data) := by
  intro n
  induction n with
  | zero =>
    intro prev data hle _ _
    have hnil : data = [] := List.length_eq_zero.mp (by omega)
    subst hnil
    simp [cbcEncBlocks_nil, cbcDecBlocks_nil]
  | succ n ih =>
    intro prev data hle hp hd
    by_cases h : data = []
    · subst h
      simp [cbcEncBlocks_nil, cbcDecBlocks_nil]
    · have hpos : 0 < data.length := List.length_pos.mpr h
      have h16 : 16 ≤ data.length := by omega
      have htake : (data.take 16).length = 16 := by
        rw [List.length_take]; omega
      have hbx : (bxor (data.take 16) prev).length = 16 := by
        rw [bxor_length, htake, hp]
        exact Nat.min_self 16
      have hc : (C.enc (bxor (data.take 16) prev)).length = 16 :=
        C.enc_len _ hbx
      rw [cbcEncBlocks_cons C prev data h]
      have hcne :
          C.enc (bxor (data.take 16) prev) ++
            (cbcEncBlocks C (C.enc (bxor (data.take 16) prev)) (data.drop 16)).2
            ≠ [] := by
        intro hcontra
        have := congrArg List.length hcontra
        simp [hc] at this
      rw [cbcDecBlocks_cons C prev _ hcne,
        List.take_left' hc, List.drop_left' hc]
      have hdeq : C.dec (C.enc (bxor (data.take 16) prev)) =
          bxor (data.take 16) prev := C.dec_enc _ hbx
      rw [hdeq, bxor_cancel (data.take 16) prev (by rw [htake, hp])]
      have hdrop : (data.drop 16).length = data.length - 16 :=
        List.length_drop 16 data
      rw [ih (C.enc (bxor (data.take 16) prev)) (data.drop 16) (by omega) hc
        (by omega)]
      rw [List.take_append_drop 16 data]

/-! Unfolding equations for the encryption and decryption loops, and for
the aligned and misaligned cases of the cipher calls. -/

theorem cipherEncrypt_ok (C : BlockCipher) (prev data : List Nat)
    (h : data.length % 16 = 0) :
    cipherEncrypt C prev data = .ok (cbcEncBlocks C prev data) := by
  simp [cipherEncrypt, h]

theorem cipherDecrypt_ok (C : BlockCipher) (prev data : List Nat)
    (h : data.length % 16 = 0) :
    cipherDecrypt C prev data = .ok (cbcDecBlocks C prev data) := by
  simp [cipherDecrypt, h]

theorem cipherDecrypt_err (C : BlockCipher) (prev data : List Nat)
    (h : data.length % 16 ≠ 0) :
    cipherDecrypt C prev data = .error .blockAlign := by
  simp [cipherDecrypt, h]

theorem terminalChunk_length (rnd : RandSource) (chunk fsRec : List Nat)
    (hfs : fsRec.length = 8) :
    (terminalChunk rnd chunk fsRec).length =
      chunk.length + (16 - chunk.length % 16) + 16 := by
  simp only [terminalChunk, List.length_append, RandSource.read_length, hfs]

theorem terminalChunk_mod (rnd : RandSource) (chunk fsRec : List Nat)
    (hfs : fsRec.length = 8) :
    (terminalChunk rnd chunk fsRec).length % 16 = 0 := by
  rw [terminalChunk_length rnd chunk fsRec hfs]
  omega

theorem encryptLoop_terminal_eq (C : BlockCipher) (prev : List Nat)
    (rnd : RandSource) (rest fsRec : List Nat) (cs : Nat)
    (h : (rest.take cs).length = 0 ∨ (rest.take cs).length % 16 ≠ 0) :
    encryptLoop C prev rnd rest fsRec cs =
      (match cipherEncrypt C prev (terminalChunk rnd (rest.take cs) fsRec) with
        | .error e => ([Ev.readSource (rest.take cs).length], .error e)
        | .ok pe =>
          ([Ev.readSource (rest.take cs).length, Ev.writeSink pe.2.length],
            .ok pe.2)) := by
  rw [encryptLoop]
  dsimp only
  rw [dif_pos h]
  rfl

theorem encryptLoop_step_eq (C : BlockCipher) (prev : List Nat)
    (rnd : RandSource) (rest fsRec : List Nat) (cs : Nat)
    (h : ¬((rest.take cs).length = 0 ∨ (rest.take cs).length % 16 ≠ 0)) :
    encryptLoop C prev rnd rest fsRec cs =
      (match cipherEncrypt C prev (rest.take cs) with
        | .error e => ([Ev.readSource (rest.take cs).length], .error e)
        | .ok pe =>
          (Ev.readSource (rest.take cs).length :: Ev.writeSink pe.2.length ::
              (encryptLoop C pe.1 rnd (rest.drop cs) fsRec cs).1,
            (encryptLoop C pe.1 rnd (rest.drop cs) fsRec cs).2.map
              fun o => pe.2 ++ o)) := by
  rw [encryptLoop]
  dsimp only
  rw [dif_neg h]

theorem decryptLoop_base (C : BlockCipher) (prev rest : List Nat) (cs : Nat)
    (h : (rest.take cs).length = 0) :
    decryptLoop C prev rest cs = ([Ev.readSource 0], .ok []) := by
  rw [decryptLoop]
  dsimp only
  rw [dif_pos h]

theorem decryptLoop_step (C : BlockCipher) (prev rest : List Nat) (cs : Nat)
    (h : ¬(rest.take cs).length = 0) :
    decryptLoop C prev rest cs =
      (match cipherDecrypt C prev (rest.take cs) with
        | .error e => ([Ev.readSource (rest.take cs).length], .error e)
        | .ok pd =>
          (Ev.readSource (rest.take cs).length :: Ev.writeSink pd.2.length ::
              (decryptLoop C pd.1 (rest.drop cs) cs).1,
            (decryptLoop C pd.1 (rest.drop cs) cs).2.map
              fun o => pd.2 ++ o)) := by
  rw [decryptLoop]
  dsimp only
  rw [dif_neg h]

/-! Behaviour of the encryption loop: it never raises, its output length is
determined by the input length alone, and CBC-decrypting its output yields
the input followed by the padding and trailer bytes. -/

theorem encryptLoop_terminal (C : BlockCipher) (prev : List Nat)
    (rnd : RandSource) (rest fsRec : List Nat) (cs : Nat)
    (hp : prev.length = 16) (hfs : fsRec.length = 8)
    (h : (rest.take cs).length = 0 ∨ (rest.take cs).length % 16 ≠ 0)
    (hrt : rest.take cs = rest) :
    ∃ ct tail,
      (encryptLoop C prev rnd rest fsRec cs).2 = .ok ct ∧
      ct.length = 16 * (rest.length / 16) + 32 ∧
      (cbcDecBlocks C prev ct).2 = rest ++ tail := by
  have hmod : (terminalChunk rnd rest fsRec).length % 16 = 0 :=
    terminalChunk_mod rnd rest fsRec hfs
  have hlen := terminalChunk_length rnd rest fsRec hfs
  rw [encryptLoop_terminal_eq C prev rnd rest fsRec cs h, hrt,
    cipherEncrypt_ok C prev _ hmod]
  refine ⟨(cbcEncBlocks C prev (terminalChunk rnd rest fsRec)).2,
    (rnd.read (16 - rest.length % 16)).1 ++
      (((rnd.read (16 - rest.length % 16)).2.read (16 - fsRec.length)).1 ++
        fsRec), rfl, ?_, ?_⟩
  · rw [cbcEncBlocks_len C prev _ hp hmod, hlen]
    omega
  · have hinv := cbcDec_cbcEnc C (terminalChunk rnd rest fsRec).length prev
      (terminalChunk rnd rest fsRec) le_rfl hp hmod
    rw [hinv]
    simp [terminalChunk, List.append_assoc]

theorem encryptLoop_spec (C : BlockCipher) (cs : Nat)
    (hcs : cs % 16 = 0) (hcs0 : cs ≠ 0) :
    ∀ (n : Nat) (rest prev : List Nat) (rnd : RandSource) (fsRec : List Nat),
      rest.length ≤ n → prev.length = 16 → fsRec.length = 8 →
      ∃ ct tail,
        (encryptLoop C prev rnd rest fsRec cs).2 = .ok ct ∧
        ct.length = 16 * (rest.length / 16) + 32 ∧
        (cbcDecBlocks C prev ct).2 = rest ++ tail := by
  intro n
  induction n with
  | zero =>
    intro rest prev rnd fsRec hle hp hfs
    have hnil : rest = [] := List.length_eq_zero.mp (by omega)
    subst hnil
    exact encryptLoop_terminal C prev rnd [] fsRec cs hp hfs
      (Or.inl (by simp)) (by simp)
  | succ n ih =>
    intro rest prev rnd fsRec hle hp hfs
    by_cases h : (rest.take cs).length = 0 ∨ (rest.take cs).length % 16 ≠ 0
    · have hrt : rest.take cs = rest := by
        rcases h with h0 | hm
        · rw [List.length_take] at h0
          have hr0 : rest.length = 0 := by omega
          have hre : rest = [] := List.length_eq_zero.mp hr0
          subst hre
          simp
        · rw [List.length_take] at hm
          by_cases hge : cs ≤ rest.length
          · exfalso
            have hmin : min cs rest.length = cs := by omega
            rw [hmin] at hm
            exact hm hcs
          · exact List.take_of_length_le (by omega)
      exact encryptLoop_terminal C prev rnd rest fsRec cs hp hfs h hrt
    · have h1 : (rest.take cs).length ≠ 0 ∧ (rest.take cs).length % 16 = 0 := by
        rcases not_or.mp h with ⟨a, b⟩
        exact ⟨a, not_not.mp b⟩
      have htlen : (rest.take cs).length = min cs rest.length :=
        List.length_take cs rest
      have hcs1 : 1 ≤ cs := by
        rcases Nat.eq_zero_or_pos cs with h0 | h0
        · exfalso; apply h1.1; rw [htlen, h0]; simp
        · omega
      have hr1 : 1 ≤ rest.length := by
        rcases Nat.eq_zero_or_pos rest.length with h0 | h0
        · exfalso; apply h1.1; rw [htlen, h0]; simp
        · omega
      have hstate : (cbcEncBlocks C prev (rest.take cs)).1.length = 16 :=
        cbcEncBlocks_state_len C prev (rest.take cs) hp h1.2
      have hdrop : (rest.drop cs).length = rest.length - cs :=
        List.length_drop cs rest
      obtain ⟨ct2, tail2, f1, f2, f3⟩ := ih (rest.drop cs)
        (cbcEncBlocks C prev (rest.take cs)).1 rnd fsRec (by omega) hstate hfs
      have henclen : (cbcEncBlocks C prev (rest.take cs)).2.length =
          (rest.take cs).length :=
        cbcEncBlocks_len C prev (rest.take cs) hp h1.2
      refine ⟨(cbcEncBlocks C prev (rest.take cs)).2 ++ ct2, tail2, ?_, ?_, ?_⟩
      · rw [encryptLoop_step_eq C prev rnd rest fsRec cs h,
          cipherEncrypt_ok C prev _ h1.2]
        dsimp only
        rw [f1]
        rfl
      · rw [List.length_append, henclen, f2, htlen, hdrop]
        omega
      · rw [cbcDecBlocks_append C (cbcEncBlocks C prev (rest.take cs)).2.length
          prev _ ct2 le_rfl (by rw [henclen]; exact h1.2)]
        have hinv := cbcDec_cbcEnc C (rest.take cs).length prev (rest.take cs)
          le_rfl hp h1.2
        rw [hinv]
        dsimp only
        rw [f3, ← List.append_assoc, List.take_append_drop]

theorem encryptLoop_ok (C : BlockCipher) (cs : Nat) :
    ∀ (n : Nat) (rest prev : List Nat) (rnd : RandSource) (fsRec : List Nat),
      rest.length ≤ n → fsRec.length = 8 →
      ∃ ct, (encryptLoop C prev rnd rest fsRec cs).2 = .ok ct := by
  intro n
  induction n with
  | zero =>
    intro rest prev rnd fsRec hle hfs
    have hnil : rest = [] := List.length_eq_zero.mp (by omega)
    subst hnil
    rw [encryptLoop_terminal_eq C prev rnd [] fsRec cs (Or.inl (by simp)),
      cipherEncrypt_ok C prev _ (terminalChunk_mod rnd _ fsRec hfs)]
    exact ⟨_, rfl⟩
  | succ n ih =>
    intro rest prev rnd fsRec hle hfs
    by_cases h : (rest.take cs).length = 0 ∨ (rest.take cs).length % 16 ≠ 0
    · rw [encryptLoop_terminal_eq C prev rnd rest fsRec cs h,
        cipherEncrypt_ok C prev _ (terminalChunk_mod rnd _ fsRec hfs)]
      exact ⟨_, rfl⟩
    · have h1 : (rest.take cs).length ≠ 0 ∧ (rest.take cs).length % 16 = 0 := by
        rcases not_or.mp h with ⟨a, b⟩
        exact ⟨a, not_not.mp b⟩
      have htlen : (rest.take cs).length = min cs rest.length :=
        List.length_take cs rest
      have hcs1 : 1 ≤ cs := by
        rcases Nat.eq_zero_or_pos cs with h0 | h0
        · exfalso; apply h1.1; rw [htlen, h0]; simp
        · omega
      have hdrop : (rest.drop cs).length = rest.length - cs :=
        List.length_drop cs rest
      obtain ⟨ct2, hct2⟩ := ih (rest.drop cs)
        (cbcEncBlocks C prev (rest.take cs)).1 rnd fsRec (by omega) hfs
      rw [encryptLoop_step_eq C prev rnd rest fsRec cs h,
        cipherEncrypt_ok C prev _ h1.2]
      dsimp only
      rw [hct2]
      exact ⟨_, rfl⟩

/-! Behaviour of the decryption loop: on block-aligned input it equals whole
CBC decryption regardless of the chunk size, and on misaligned input it
raises the block-alignment error. -/

theorem decryptLoop_spec (C : BlockCipher) (cs : Nat)
    (hcs : cs % 16 = 0) (hcs0 : cs ≠ 0) :
    ∀ (n : Nat) (ct prev : List Nat), ct.length ≤ n → ct.length % 16 = 0 →
      (decryptLoop C prev ct cs).2 = .ok ((cbcDecBlocks C prev ct).2) := by
  intro n
  induction n with
  | zero =>
    intro ct prev hle _
    have hnil : ct = [] := List.length_eq_zero.mp (by omega)
    subst hnil
    rw [decryptLoop_base C prev [] cs (by simp)]
    simp [cbcDecBlocks_nil]
  | succ n ih =>
    intro ct prev hle hmod
    by_cases h : (ct.take cs).length = 0
    · have hnil : ct = [] := by
        rw [List.length_take] at h
        exact List.length_eq_zero.mp (by omega)
      subst hnil
      rw [decryptLoop_base C prev [] cs (by simp)]
      simp [cbcDecBlocks_nil]
    · have htlen : (ct.take cs).length = min cs ct.length :=
        List.length_take cs ct
      have hchunk : (ct.take cs).length % 16 = 0 := by
        rw [htlen]
        omega
      have hdrop : (ct.drop cs).length = ct.length - cs :=
        List.length_drop cs ct
      have hcs1 : 1 ≤ cs := by omega
      rw [decryptLoop_step C prev ct cs h, cipherDecrypt_ok C prev _ hchunk]
      dsimp only
      rw [ih (ct.drop cs) (cbcDecBlocks C prev (ct.take cs)).1 (by omega)
        (by rw [hdrop]; omega)]
      conv_rhs => rw [← List.take_append_drop cs ct]
      rw [cbcDecBlocks_append C (ct.take cs).length prev (ct.take cs)
        (ct.drop cs) le_rfl hchunk]
      rfl

theorem decryptLoop_err (C : BlockCipher) (cs : Nat)
    (hcs : cs % 16 = 0) (hcs0 : cs ≠ 0) :
    ∀ (n : Nat) (ct prev : List Nat), ct.length ≤ n → ct.length % 16 ≠ 0 →
      (decryptLoop C prev ct cs).2 = .error .blockAlign := by
  intro n
  induction n with
  | zero =>
    intro ct prev hle hmod
    exfalso
    apply hmod
    have hnil : ct = [] := List.length_eq_zero.mp (by omega)
    subst hnil
    rfl
  | succ n ih =>
    intro ct prev hle hmod
    have h : ¬(ct.take cs).length = 0 := by
      rw [List.length_take]
      intro hz
      apply hmod
      have : ct.length = 0 := by omega
      rw [this]
    have htlen : (ct.take cs).length = min cs ct.length :=
      List.length_take cs ct
    have hdrop : (ct.drop cs).length = ct.length - cs :=
      List.length_drop cs ct
    by_cases hmc : (ct.take cs).length % 16 = 0
    · have hgt : cs < ct.length := by
        rw [htlen] at hmc
        by_cases hge : ct.length ≤ cs
        · exfalso
          apply hmod
          have hmin : min cs ct.length = ct.length := by omega
          rw [hmin] at hmc
          exact hmc
        · omega
      rw [decryptLoop_step C prev ct cs h, cipherDecrypt_ok C prev _ hmc]
      dsimp only
      rw [ih (ct.drop cs) (cbcDecBlocks C prev (ct.take cs)).1 (by omega)
        (by rw [htlen] at hmc; omega)]
      rfl
    · rw [decryptLoop_step C prev ct cs h, cipherDecrypt_err C prev _ hmc]

/-! Behaviour of encrypt_file, decrypt_file and their composition. -/

theorem AES_new_ok (A : List Nat → BlockCipher) (key iv : List Nat)
    (hk : validKeyLength key) (hiv : iv.length = 16) :
    AES_new A key iv = .ok (A key, iv) := by
  simp [AES_new, hk, hiv]

theorem AES_new_badkey (A : List Nat → BlockCipher) (key iv : List Nat)
    (hk : ¬validKeyLength key) :
    AES_new A key iv = .error .keyLength := by
  simp [AES_new, hk]

theorem encrypt_file_spec (A : List Nat → BlockCipher) (key P : List Nat)
    (rnd : RandSource) (cs : Nat) (hk : validKeyLength key)
    (hcs : cs % 16 = 0) (hcs0 : cs ≠ 0) :
    ∃ ct tail,
      (encrypt_file A key P rnd cs).2 =
        .ok (packQ P.length ++ (rnd.read 16).1 ++ ct) ∧
      ct.length = 16 * (P.length / 16) + 32 ∧
      (cbcDecBlocks (A key) (rnd.read 16).1 ct).2 = P ++ tail := by
  obtain ⟨ct, tail, e1, e2, e3⟩ := encryptLoop_spec (A key) cs hcs hcs0
    P.length P (rnd.read 16).1 (rnd.read 16).2 (packQ P.length) le_rfl
    (RandSource.read_length rnd 16) (packQ_length P.length)
  refine ⟨ct, tail, ?_, e2, e3⟩
  unfold encrypt_file
  dsimp only
  rw [AES_new_ok A key (rnd.read 16).1 hk (RandSource.read_length rnd 16)]
  dsimp only
  rw [e1]
  rfl

theorem encrypt_file_header (A : List Nat → BlockCipher) (key P : List Nat)
    (rnd : RandSource) (cs : Nat) (hk : validKeyLength key) :
    ∃ out, (encrypt_file A key P rnd cs).2 = .ok out ∧
      out.take 8 = packQ P.length := by
  obtain ⟨ct, e1⟩ := encryptLoop_ok (A key) cs P.length P (rnd.read 16).1
    (rnd.read 16).2 (packQ P.length) le_rfl (packQ_length P.length)
  refine ⟨packQ P.length ++ (rnd.read 16).1 ++ ct, ?_, ?_⟩
  · unfold encrypt_file
    dsimp only
    rw [AES_new_ok A key (rnd.read 16).1 hk (RandSource.read_length rnd 16)]
    dsimp only
    rw [e1]
    rfl
  · rw [List.append_assoc]
    exact List.take_left' (packQ_length P.length)

theorem encrypt_file_badkey (A : List Nat → BlockCipher) (key P : List Nat)
    (rnd : RandSource) (cs : Nat) (hk : ¬validKeyLength key) :
    encrypt_file A key P rnd cs = ([], .error .keyLength) := by
  unfold encrypt_file
  dsimp only
  rw [AES_new_badkey A key (rnd.read 16).1 hk]

theorem decrypt_file_ok (A : List Nat → BlockCipher) (key iv ct : List Nat)
    (n cs : Nat) (hk : validKeyLength key) (hiv : iv.length = 16)
    (hct : ct.length % 16 = 0) (hcs : cs % 16 = 0) (hcs0 : cs ≠ 0)
    (hn : n < 2 ^ 64) :
    (decrypt_file A key (packQ n ++ iv ++ ct) cs).2 =
      .ok (truncateTo (cbcDecBlocks (A key) iv ct).2 n) := by
  have h8 : (packQ n ++ iv ++ ct).take 8 = packQ n := by
    rw [List.append_assoc]
    exact List.take_left' (packQ_length n)
  have hun : unpackQ ((packQ n ++ iv ++ ct).take 8) = .ok n := by
    rw [h8]
    simp [unpackQ, packQ_length, ofLE_packQ n hn]
  have hdrop8 : (packQ n ++ iv ++ ct).drop 8 = iv ++ ct := by
    rw [List.append_assoc]
    exact List.drop_left' (packQ_length n)
  have hivt : ((packQ n ++ iv ++ ct).drop 8).take 16 = iv := by
    rw [hdrop8]
    exact List.take_left' hiv
  have h24 : (packQ n ++ iv ++ ct).drop 24 = ct := by
    have h823 : (24 : Nat) = 8 + 16 := rfl
    rw [h823, ← List.drop_drop, hdrop8]
    exact List.drop_left' hiv
  unfold decrypt_file
  dsimp only
  rw [hun]
  dsimp only
  rw [hivt, AES_new_ok A key iv hk hiv]
  dsimp only
  rw [h24, decryptLoop_spec (A key) cs hcs hcs0 ct.length ct iv le_rfl hct]

theorem roundTrip_ok (A : List Nat → BlockCipher) (key P : List Nat)
    (rnd : RandSource) (ce cd : Nat)
    (hk : validKeyLength key) (hce : ce % 16 = 0) (hce0 : ce ≠ 0)
    (hcd : cd % 16 = 0) (hcd0 : cd ≠ 0) (hP : P.length < 2 ^ 64) :
    roundTrip A key P rnd ce cd = .ok P := by
  obtain ⟨ct, tail, e1, e2, e3⟩ := encrypt_file_spec A key P rnd ce hk hce hce0
  have hivlen : (rnd.read 16).1.length = 16 := RandSource.read_length rnd 16
  have hctmod : ct.length % 16 = 0 := by omega
  have hlen2 : (cbcDecBlocks (A key) (rnd.read 16).1 ct).2.length = ct.length :=
    cbcDecBlocks_len (A key) ct.length (rnd.read 16).1 ct le_rfl hivlen hctmod
  unfold roundTrip
  rw [e1]
  dsimp only
  rw [decrypt_file_ok A key (rnd.read 16).1 ct P.length cd hk hivlen
    hctmod hcd hcd0 hP, e3]
  have hge : P.length ≤ (P ++ tail).length := by
    rw [List.length_append]
    omega
  rw [truncateTo, if_pos hge, List.take_left P tail]

theorem decrypt_encrypt_ok (A : List Nat → BlockCipher) (key P : List Nat)
    (rnd : RandSource) (ce cd : Nat)
    (hk : validKeyLength key) (hce : ce % 16 = 0) (hce0 : ce ≠ 0)
    (hcd : cd % 16 = 0) (hcd0 : cd ≠ 0) (hP : P.length < 2 ^ 64) :
    ∃ ct, (encrypt_file A key P rnd ce).2 = .ok ct ∧
      (decrypt_file A key ct cd).2 = .ok P := by
  obtain ⟨ct, hct⟩ := encryptLoop_ok (A key) ce P.length P (rnd.read 16).1
    (rnd.read 16).2 (packQ P.length) le_rfl (packQ_length P.length)
  have hrt := roundTrip_ok A key P rnd ce cd hk hce hce0 hcd hcd0 hP
  obtain ⟨out, e1, _⟩ := encrypt_file_header A key P rnd ce hk
  refine ⟨out, e1, ?_⟩
  unfold roundTrip at hrt
  rw [e1] at hrt
  exact hrt

theorem encrypt_file_length (A : List Nat → BlockCipher) (key P : List Nat)
    (rnd : RandSource) (cs : Nat) (hk : validKeyLength key)
    (hcs : cs % 16 = 0) (hcs0 : cs ≠ 0) :
    (encrypt_file A key P rnd cs).2.map List.length =
      .ok (24 + 16 * (P.length / 16) + 32) := by
  obtain ⟨ct, tail, e1, e2, _⟩ := encrypt_file_spec A key P rnd cs hk hcs hcs0
  rw [e1]
  have hout : (packQ P.length ++ (rnd.read 16).1 ++ ct).length =
      24 + 16 * (P.length / 16) + 32 := by
    simp only [List.length_append, packQ_length, RandSource.read_length, e2]
    omega
  have hmap : (Except.ok (packQ P.length ++ (rnd.read 16).1 ++ ct) :
      Except CkErr (List Nat)).map List.length =
      .ok ((packQ P.length ++ (rnd.read 16).1 ++ ct).length) := rfl
  rw [hmap, hout]

theorem decrypt_file_badkey (A : List Nat → BlockCipher) (key source : List Nat)
    (cs : Nat) (hk : ¬validKeyLength key) (h24 : 24 ≤ source.length) :
    decrypt_file A key source cs =
      ([Ev.openSource, Ev.readSource 8, Ev.readSource 16],
        .error .keyLength) := by
  have hfld : (source.take 8).length = 8 := by
    rw [List.length_take]
    omega
  have hivl : ((source.drop 8).take 16).length = 16 := by
    rw [List.length_take, List.length_drop]
    omega
  have hun : unpackQ (source.take 8) = .ok (ofLE (source.take 8)) := by
    unfold unpackQ
    rw [if_pos hfld]
  unfold decrypt_file
  dsimp only
  rw [hun]
  dsimp only
  rw [AES_new_badkey A key _ hk, hfld, hivl]

/-! The claims. -/

/-- C1: For every key of valid length (16, 24, or 32 bytes) and every
plaintext byte sequence P, including the empty sequence, running
decrypt_file with the same key on the output of encrypt_file recovers
exactly P.  Chunk sizes range over all positive multiples of 16 (covering
the defaults 65536 and 24576), and the plaintext length is within the range
of the 8-byte size field. -/
theorem C1_round_trip (A : List Nat → BlockCipher) (key P : List Nat)
    (rnd : RandSource) (ce cd : Nat)
    (hk : validKeyLength key) (hce : ce % 16 = 0) (hce0 : ce ≠ 0)
    (hcd : cd % 16 = 0) (hcd0 : cd ≠ 0) (hP : P.length < 2 ^ 64) :
    ∃ ct, (encrypt_file A key P rnd ce).2 = .ok ct ∧
      (decrypt_file A key ct cd).2 = .ok P :=
  decrypt_encrypt_ok A key P rnd ce cd hk hce hce0 hcd hcd0 hP

/-- Witness for C1: a 16-byte zero key, plaintext of 3 bytes, chunk size 16
on both sides. -/
theorem C1_round_trip_witness :
    validKeyLength (List.replicate 16 0) ∧ (16 : Nat) % 16 = 0 ∧
    (16 : Nat) ≠ 0 ∧ ([1, 2, 3] : List Nat).length < 2 ^ 64 ∧
    ∃ ct, (encrypt_file idAES (List.replicate 16 0) [1, 2, 3] rnd0 16).2 =
        .ok ct ∧
      (decrypt_file idAES (List.replicate 16 0) ct 16).2 = .ok [1, 2, 3] :=
  ⟨by decide, by decide, by decide, by decide,
    C1_round_trip idAES (List.replicate 16 0) [1, 2, 3] rnd0 16 16
      (by decide) (by decide) (by decide) (by decide) (by decide) (by decide)⟩

/-- C2: For every key of valid length and every plaintext, the first 8
bytes of the output of encrypt_file, interpreted as a little-endian
unsigned 64-bit integer, equal the exact byte length of the plaintext.
This holds for every chunk size, with the plaintext length within the
range of the 8-byte field. -/
theorem C2_size_header (A : List Nat → BlockCipher) (key P : List Nat)
    (rnd : RandSource) (cs : Nat) (hk : validKeyLength key)
    (hP : P.length < 2 ^ 64) :
    ∃ out, (encrypt_file A key P rnd cs).2 = .ok out ∧
      out.take 8 = packQ P.length ∧
      ofLE (out.take 8) = P.length := by
  obtain ⟨out, e1, e2⟩ := encrypt_file_header A key P rnd cs hk
  refine ⟨out, e1, e2, ?_⟩
  rw [e2]
  exact ofLE_packQ P.length hP

/-- Witness for C2: a 24-byte zero key and a 5-byte plaintext. -/
theorem C2_size_header_witness :
    validKeyLength (List.replicate 24 0) ∧
    ([9, 8, 7, 6, 5] : List Nat).length < 2 ^ 64 ∧
    ∃ out, (encrypt_file idAES (List.replicate 24 0) [9, 8, 7, 6, 5] rnd0
        1024).2 = .ok out ∧
      out.take 8 = packQ ([9, 8, 7, 6, 5] : List Nat).length ∧
      ofLE (out.take 8) = ([9, 8, 7, 6, 5] : List Nat).length :=
  ⟨by decide, by decide,
    C2_size_header idAES (List.replicate 24 0) [9, 8, 7, 6, 5] rnd0 1024
      (by decide) (by decide)⟩

/-- Counterexample to C3: a truncated container holding original_size = 5
but zero ciphertext bytes.  decrypt_file does not fail: it returns five
zero bytes, silently padding the output to original_size. -/
theorem C3_counterexample :
    (decrypt_file idAES (List.replicate 16 0)
        (packQ 5 ++ List.replicate 16 0) 16).2 = .ok (List.replicate 5 0) := by
  have h := decrypt_file_ok idAES (List.replicate 16 0) (List.replicate 16 0)
    [] 5 16 (by decide) (by decide) (by decide) (by decide) (by decide)
    (by decide)
  rw [List.append_nil] at h
  rw [h, cbcDecBlocks_nil]
  rfl

/-- C3 (amended): If the original_size read from the 8-byte header exceeds
the number of plaintext bytes actually recovered from the ciphertext
(truncated input), decrypt_file does NOT fail: the final truncate call
silently extends the output with zero bytes up to original_size (POSIX
ftruncate semantics). -/
theorem C3_silent_pad (A : List Nat → BlockCipher) (key iv ct : List Nat)
    (n cs : Nat) (hk : validKeyLength key) (hiv : iv.length = 16)
    (hct : ct.length % 16 = 0) (hcs : cs % 16 = 0) (hcs0 : cs ≠ 0)
    (hn : n < 2 ^ 64) (hbig : ct.length < n) :
    (decrypt_file A key (packQ n ++ iv ++ ct) cs).2 =
      .ok ((cbcDecBlocks (A key) iv ct).2 ++
        List.replicate (n - ct.length) 0) := by
  rw [decrypt_file_ok A key iv ct n cs hk hiv hct hcs hcs0 hn]
  have hlen : (cbcDecBlocks (A key) iv ct).2.length = ct.length :=
    cbcDecBlocks_len (A key) ct.length iv ct le_rfl hiv hct
  rw [truncateTo, if_neg (by omega), hlen]

/-- Witness for C3 (amended): one ciphertext block but original_size 20. -/
theorem C3_silent_pad_witness :
    validKeyLength (List.replicate 16 0) ∧
    (List.replicate 16 0 : List Nat).length = 16 ∧
    (List.replicate 16 3 : List Nat).length % 16 = 0 ∧
    (List.replicate 16 3 : List Nat).length < 20 ∧ (20 : Nat) < 2 ^ 64 ∧
    (decrypt_file idAES (List.replicate 16 0)
        (packQ 20 ++ List.replicate 16 0 ++ List.replicate 16 3) 16).2 =
      .ok ((cbcDecBlocks (idAES (List.replicate 16 0)) (List.replicate 16 0)
          (List.replicate 16 3)).2 ++
        List.replicate (20 - (List.replicate 16 3 : List Nat).length) 0) :=
  ⟨by decide, by decide, by decide, by decide, by decide,
    C3_silent_pad idAES (List.replicate 16 0) (List.replicate 16 0)
      (List.replicate 16 3) 20 16 (by decide) (by decide) (by decide)
      (by decide) (by decide) (by decide) (by decide)⟩

/-- Counterexample to C4: a 32-byte plaintext (a multiple of 16) does not
produce 48 bytes of ciphertext (72 bytes of output): the empty terminal
read receives a full 16-byte random padding block in addition to the
16-byte trailer, so the output is 88 bytes long. -/
theorem C4_counterexample :
    ¬((encrypt_file idAES (List.replicate 16 0) (List.replicate 32 7) rnd0
        1024).2.map List.length = .ok 72) ∧
    (encrypt_file idAES (List.replicate 16 0) (List.replicate 32 7) rnd0
        1024).2.map List.length = .ok 88 := by
  have h := encrypt_file_length idAES (List.replicate 16 0)
    (List.replicate 32 7) rnd0 1024 (by decide) (by decide) (by decide)
  have h32 : (List.replicate 32 7 : List Nat).length = 32 := by decide
  rw [h32] at h
  norm_num at h
  refine ⟨?_, h⟩
  rw [h]
  intro hc
  injection hc with hc2
  exact absurd hc2 (by decide)

/-- C4 (amended): For every plaintext whose length is a multiple of 16
(including the empty plaintext), encrypt_file appends one full 16-byte
random padding block AND the 16-byte trailer block, so the output is
24 + P + 32 bytes: a 0-byte plaintext yields a 56-byte output and a
32-byte plaintext yields 64 bytes of ciphertext (88 bytes of output), with
decrypt_file still recovering exactly the original bytes. -/
theorem C4_multiple_of_16 (A : List Nat → BlockCipher) (key P : List Nat)
    (rnd : RandSource) (ce cd : Nat)
    (hk : validKeyLength key) (hce : ce % 16 = 0) (hce0 : ce ≠ 0)
    (hcd : cd % 16 = 0) (hcd0 : cd ≠ 0) (hP : P.length < 2 ^ 64)
    (hP16 : P.length % 16 = 0) :
    ∃ ct, (encrypt_file A key P rnd ce).2 = .ok ct ∧
      ct.length = 24 + P.length + 32 ∧
      (decrypt_file A key ct cd).2 = .ok P := by
  obtain ⟨ct, tail, e1, e2, e3⟩ := encrypt_file_spec A key P rnd ce hk hce hce0
  have hivlen : (rnd.read 16).1.length = 16 := RandSource.read_length rnd 16
  have hctmod : ct.length % 16 = 0 := by omega
  refine ⟨packQ P.length ++ (rnd.read 16).1 ++ ct, e1, ?_, ?_⟩
  · simp only [List.length_append, packQ_length, hivlen, e2]
    omega
  · rw [decrypt_file_ok A key (rnd.read 16).1 ct P.length cd hk hivlen
      hctmod hcd hcd0 hP, e3]
    have hge : P.length ≤ (P ++ tail).length := by
      rw [List.length_append]
      omega
    rw [truncateTo, if_pos hge, List.take_left P tail]

/-- Witness for C4 (amended): an empty plaintext with a 32-byte zero key;
the output is 24 + 0 + 32 = 56 bytes and decrypts back to the empty byte
string. -/
theorem C4_multiple_of_16_witness :
    validKeyLength (List.replicate 32 0) ∧ ([] : List Nat).length % 16 = 0 ∧
    ∃ ct, (encrypt_file idAES (List.replicate 32 0) [] rnd0 16).2 = .ok ct ∧
      ct.length = 24 + ([] : List Nat).length + 32 ∧
      (decrypt_file idAES (List.replicate 32 0) ct 16).2 = .ok [] :=
  ⟨by decide, by decide,
    C4_multiple_of_16 idAES (List.replicate 32 0) [] rnd0 16 16 (by decide)
      (by decide) (by decide) (by decide) (by decide) (by decide) (by decide)⟩

/-- C5: For every valid key, every plaintext, and every pair of chunk sizes
that are positive multiples of 16, encrypting with one chunk size and
decrypting with the other recovers the same plaintext as using any other
such pair (in particular, matching chunk sizes): the decryption chunk size
need not equal the encryption chunk size. -/
theorem C5_chunk_size_independence (A : List Nat → BlockCipher)
    (key P : List Nat) (rnd : RandSource) (ce1 cd1 ce2 cd2 : Nat)
    (hk : validKeyLength key)
    (hce1 : ce1 % 16 = 0) (hce10 : ce1 ≠ 0)
    (hcd1 : cd1 % 16 = 0) (hcd10 : cd1 ≠ 0)
    (hce2 : ce2 % 16 = 0) (hce20 : ce2 ≠ 0)
    (hcd2 : cd2 % 16 = 0) (hcd20 : cd2 ≠ 0)
    (hP : P.length < 2 ^ 64) :
    roundTrip A key P rnd ce1 cd1 = roundTrip A key P rnd ce2 cd2 := by
  rw [roundTrip_ok A key P rnd ce1 cd1 hk hce1 hce10 hcd1 hcd10 hP,
    roundTrip_ok A key P rnd ce2 cd2 hk hce2 hce20 hcd2 hcd20 hP]

/-- Witness for C5: encrypting with chunk size 1024 and decrypting with
chunk size 24576 agrees with matching chunk sizes 16/16. -/
theorem C5_chunk_size_independence_witness :
    validKeyLength (List.replicate 16 0) ∧
    ([4, 5, 6] : List Nat).length < 2 ^ 64 ∧
    roundTrip idAES (List.replicate 16 0) [4, 5, 6] rnd0 1024 24576 =
      roundTrip idAES (List.replicate 16 0) [4, 5, 6] rnd0 16 16 :=
  ⟨by decide, by decide,
    C5_chunk_size_independence idAES (List.replicate 16 0) [4, 5, 6] rnd0
      1024 24576 16 16 (by decide) (by decide) (by decide) (by decide)
      (by decide) (by decide) (by decide) (by decide) (by decide) (by decide)⟩

/-- Counterexample to C6: with chunk size 0 — which is a multiple of 16 —
a container whose ciphertext portion is 1 byte long (not a multiple of 16)
is NOT rejected: the read loop exits immediately on the empty read, and
decrypt_file returns a zero byte, silently fabricated by the final
truncation. -/
theorem C6_counterexample :
    (decrypt_file idAES (List.replicate 16 0)
        ([1, 0, 0, 0, 0, 0, 0, 0] ++ List.replicate 16 0 ++ [7]) 0).2 =
      .ok [0] := by
  have h1 : unpackQ
      (([1, 0, 0, 0, 0, 0, 0, 0] ++ List.replicate 16 0 ++ [7] :
        List Nat).take 8) = .ok 1 := rfl
  have h2 : (([1, 0, 0, 0, 0, 0, 0, 0] ++ List.replicate 16 0 ++ [7] :
      List Nat).drop 8).take 16 = List.replicate 16 0 := by decide
  have h3 : ([1, 0, 0, 0, 0, 0, 0, 0] ++ List.replicate 16 0 ++ [7] :
      List Nat).drop 24 = [7] := by decide
  unfold decrypt_file
  dsimp only
  rw [h1]
  dsimp only
  rw [h2, AES_new_ok idAES (List.replicate 16 0) (List.replicate 16 0)
    (by decide) (by decide)]
  dsimp only
  rw [h3, decryptLoop_base (idAES (List.replicate 16 0)) (List.replicate 16 0)
    [7] 0 (by decide)]
  rfl

/-- C6 (amended): For every container whose ciphertext portion (the bytes
after the 24-byte header) has a length that is not a multiple of 16,
decrypt_file fails with an error rather than silently truncating or
padding the input, for every POSITIVE chunk size that is a multiple of 16
(chunk size 0 is excluded: it makes the read loop exit at once). -/
theorem C6_alignment_error (A : List Nat → BlockCipher) (key source : List Nat)
    (cs : Nat) (hmis : ¬(16 ∣ (source.length - 24)))
    (hcs : cs % 16 = 0) (hcs0 : cs ≠ 0) :
    ((decrypt_file A key source cs).2).isOk = false := by
  have h24 : 24 < source.length := by
    by_contra hle
    apply hmis
    have hz : source.length - 24 = 0 := by omega
    rw [hz]
    exact dvd_zero 16
  have hfld : (source.take 8).length = 8 := by
    rw [List.length_take]
    omega
  have hun : unpackQ (source.take 8) = .ok (ofLE (source.take 8)) := by
    unfold unpackQ
    rw [if_pos hfld]
  unfold decrypt_file
  dsimp only
  rw [hun]
  dsimp only
  by_cases hk : validKeyLength key
  · have hivl : ((source.drop 8).take 16).length = 16 := by
      rw [List.length_take, List.length_drop]
      omega
    rw [AES_new_ok A key _ hk hivl]
    dsimp only
    have hrl : (source.drop 24).length % 16 ≠ 0 := by
      rw [List.length_drop]
      omega
    rw [decryptLoop_err (A key) cs hcs hcs0 (source.drop 24).length
      (source.drop 24) ((source.drop 8).take 16) le_rfl hrl]
    rfl
  · rw [AES_new_badkey A key _ hk]
    rfl

/-- Witness for C6 (amended): a container with a 17-byte ciphertext
portion, chunk size 16. -/
theorem C6_alignment_error_witness :
    ¬(16 ∣ ((packQ 3 ++ List.replicate 16 0 ++ List.replicate 17 9 :
      List Nat).length - 24)) ∧
    ((decrypt_file idAES (List.replicate 16 0)
        (packQ 3 ++ List.replicate 16 0 ++ List.replicate 17 9) 16).2).isOk =
      false :=
  ⟨by decide,
    C6_alignment_error idAES (List.replicate 16 0)
      (packQ 3 ++ List.replicate 16 0 ++ List.replicate 17 9) 16 (by decide)
      (by decide) (by decide)⟩

/-- C7: For the key consisting of 32 zero bytes and the 13-byte plaintext
Slithy toves with a trailing newline, encrypt_file (at its default chunk
size) produces output beginning with the bytes 0D 00 00 00 00 00 00 00,
followed by the 16 IV bytes, followed by exactly 32 ciphertext bytes (13
bytes padded to 16, plus one 16-byte trailer block), and decrypt_file (at
its default chunk size) on that output returns exactly the original 13
bytes.  The statement holds for every block-cipher primitive and every
randomness source. -/
theorem C7_slithy_scenario (A : List Nat → BlockCipher) (rnd : RandSource) :
    ∃ ct : List Nat,
      (encrypt_file A (List.replicate 32 0) slithy rnd
          DEFAULT_ENCRYPT_CHUNKSIZE).2 =
        .ok ([13, 0, 0, 0, 0, 0, 0, 0] ++ (rnd.read 16).1 ++ ct) ∧
      (rnd.read 16).1.length = 16 ∧
      ct.length = 32 ∧
      (decrypt_file A (List.replicate 32 0)
          ([13, 0, 0, 0, 0, 0, 0, 0] ++ (rnd.read 16).1 ++ ct)
          DEFAULT_DECRYPT_CHUNKSIZE).2 = .ok slithy := by
  have hpq : packQ slithy.length = [13, 0, 0, 0, 0, 0, 0, 0] := by decide
  obtain ⟨ct, tail, e1, e2, e3⟩ := encrypt_file_spec A (List.replicate 32 0)
    slithy rnd DEFAULT_ENCRYPT_CHUNKSIZE (by decide) (by decide) (by decide)
  have hct32 : ct.length = 32 := by
    have h13 : slithy.length = 13 := by decide
    rw [h13] at e2
    norm_num at e2
    exact e2
  refine ⟨ct, ?_, RandSource.read_length rnd 16, hct32, ?_⟩
  · rw [← hpq]
    exact e1
  · rw [← hpq]
    rw [decrypt_file_ok A (List.replicate 32 0) (rnd.read 16).1 ct
      slithy.length DEFAULT_DECRYPT_CHUNKSIZE (by decide)
      (RandSource.read_length rnd 16) (by omega) (by decide) (by decide)
      (by decide), e3]
    have hge : slithy.length ≤ (slithy ++ tail).length := by
      rw [List.length_append]
      omega
    rw [truncateTo, if_pos hge, List.take_left slithy tail]

/-- Counterexample to C8: decrypt_file with the invalid 3-byte key [0,0,0]
does raise the key-length error, but only after opening the source and
reading the 8-byte length field and the 16-byte IV: the I/O trace is not
empty when the error is raised, contradicting the claim that no file is
opened or read before the key is validated. -/
theorem C8_counterexample :
    (decrypt_file idAES [0, 0, 0] (List.replicate 24 0) 24576).2 =
      .error .keyLength ∧
    (decrypt_file idAES [0, 0, 0] (List.replicate 24 0) 24576).1 ≠ [] := by
  constructor
  · rfl
  · decide

/-- C8 (amended): For every key whose length is not 16, 24, or 32 bytes,
encrypt_file raises the key-length error before any I/O on the source or
sink (its event trace is empty), but decrypt_file first opens the source
and reads the 24-byte header (8-byte length field, then 16-byte IV) and
only then raises the key-length error; it never opens or writes the
sink. -/
theorem C8_key_validation (A : List Nat → BlockCipher) (key : List Nat)
    (hk : ¬validKeyLength key) :
    (∀ (P : List Nat) (rnd : RandSource) (cs : Nat),
      encrypt_file A key P rnd cs = ([], .error .keyLength)) ∧
    (∀ (source : List Nat) (cs : Nat), 24 ≤ source.length →
      decrypt_file A key source cs =
        ([Ev.openSource, Ev.readSource 8, Ev.readSource 16],
          .error .keyLength)) :=
  ⟨fun P rnd cs => encrypt_file_badkey A key P rnd cs hk,
    fun source cs h24 => decrypt_file_badkey A key source cs hk h24⟩

/-- Witness for C8 (amended): the 3-byte key [1,2,3]. -/
theorem C8_key_validation_witness :
    ¬validKeyLength [1, 2, 3] ∧
    encrypt_file idAES [1, 2, 3] [9] rnd0 16 = ([], .error .keyLength) ∧
    decrypt_file idAES [1, 2, 3] (List.replicate 24 0) 16 =
      ([Ev.openSource, Ev.readSource 8, Ev.readSource 16],
        .error .keyLength) :=
  ⟨by decide,
    (C8_key_validation idAES [1, 2, 3] (by decide)).1 [9] rnd0 16,
    (C8_key_validation idAES [1, 2, 3] (by decide)).2 (List.replicate 24 0) 16
      (by decide)⟩

/-- C9: For every input source shorter than the fixed 24-byte header
(8-byte length field plus 16-byte IV), decrypt_file fails with an error
(struct.error on a short length field, or ValueError from the cipher
constructor on a short IV or bad key) and never opens or writes the sink,
so no output is produced. -/
theorem C9_short_source (A : List Nat → BlockCipher) (key source : List Nat)
    (cs : Nat) (hshort : source.length < 24) :
    ((decrypt_file A key source cs).2).isOk = false ∧
    Ev.openSink ∉ (decrypt_file A key source cs).1 ∧
    ∀ n : Nat, Ev.writeSink n ∉ (decrypt_file A key source cs).1 := by
  unfold decrypt_file
  dsimp only
  by_cases h8 : source.length < 8
  · have hfld : (source.take 8).length = source.length := by
      rw [List.length_take]
      omega
    have hun : unpackQ (source.take 8) = .error .structError := by
      unfold unpackQ
      rw [if_neg (by rw [hfld]; omega)]
    rw [hun]
    refine ⟨rfl, by simp, fun n => by simp⟩
  · have hfl8 : (source.take 8).length = 8 := by
      rw [List.length_take]
      omega
    have hun : unpackQ (source.take 8) = .ok (ofLE (source.take 8)) := by
      unfold unpackQ
      rw [if_pos hfl8]
    rw [hun]
    dsimp only
    have hivlt : ((source.drop 8).take 16).length = source.length - 8 := by
      rw [List.length_take, List.length_drop]
      omega
    have hAes : ∃ e, AES_new A key ((source.drop 8).take 16) = .error e := by
      unfold AES_new
      by_cases hk : validKeyLength key
      · rw [if_pos hk, if_neg (by rw [hivlt]; omega)]
        exact ⟨_, rfl⟩
      · rw [if_neg hk]
        exact ⟨_, rfl⟩
    obtain ⟨e, he⟩ := hAes
    rw [he]
    refine ⟨rfl, by simp, fun n => by simp⟩

/-- Witness for C9: a 3-byte source. -/
theorem C9_short_source_witness :
    ([1, 2, 3] : List Nat).length < 24 ∧
    (((decrypt_file idAES (List.replicate 16 0) [1, 2, 3] 16).2).isOk =
      false ∧
    Ev.openSink ∉ (decrypt_file idAES (List.replicate 16 0) [1, 2, 3] 16).1 ∧
    ∀ n : Nat, Ev.writeSink n ∉
      (decrypt_file idAES (List.replicate 16 0) [1, 2, 3] 16).1) :=
  ⟨by decide,
    C9_short_source idAES (List.replicate 16 0) [1, 2, 3] 16 (by decide)⟩

/-- C10: For every plaintext of length L and every positive chunk size that
is a multiple of 16, the total output of encrypt_file is exactly
24 + 16 * (L / 16) + 32 bytes: when L is not a multiple of 16 the terminal
chunk is padded to the next 16-byte boundary and one 16-byte trailer block
is appended, and when L is a multiple of 16 (including L = 0) the empty
terminal read itself receives a full 16-byte random padding block before
the trailer, so two extra 16-byte blocks are appended. -/
theorem C10_output_length (A : List Nat → BlockCipher) (key P : List Nat)
    (rnd : RandSource) (cs : Nat) (hk : validKeyLength key)
    (hcs : cs % 16 = 0) (hcs0 : cs ≠ 0) :
    (encrypt_file A key P rnd cs).2.map List.length =
      .ok (24 + 16 * (P.length / 16) + 32) :=
  encrypt_file_length A key P rnd cs hk hcs hcs0

/-- Witness for C10: a 5-byte plaintext at chunk size 16 gives
24 + 0 + 32 = 56 output bytes. -/
theorem C10_output_length_witness :
    validKeyLength (List.replicate 32 0) ∧ (16 : Nat) % 16 = 0 ∧
    (16 : Nat) ≠ 0 ∧
    (encrypt_file idAES (List.replicate 32 0) [1, 2, 3, 4, 5] rnd0 16).2.map
      List.length =
      .ok (24 + 16 * (([1, 2, 3, 4, 5] : List Nat).length / 16) + 32) :=
  ⟨by decide, by decide, by decide,
    C10_output_length idAES (List.replicate 32 0) [1, 2, 3, 4, 5] rnd0 16
      (by decide) (by decide) (by decide)⟩

end Cryptkeeper
